import Mathlib

/-!
Verification of the wordsworth spell checker (lib/spell_checker.js).

The JavaScript source is shallowly embedded here:

* JS strings are modelled as `List Char` (`JStr`); JS string comparison
  (`<` on strings) is code-unit lexicographic, modelled by `ltJStr`.
* The module-level mutable objects `dict` and `probabilityModel` are
  modelled as association lists inside an explicit state record `St`
  that every operation threads; `SpellChecker` instances carry no state
  of their own, exactly as in the source (`var SpellChecker = function() {};`).
* A JS `TypeError` (dereferencing an undefined object property) is
  modelled with `Except JsErr`.
* `while` loops are modelled by structural recursion on a fuel argument
  chosen large enough that, for the loop in `exists`, the fuel can never
  run out (the search interval shrinks at every iteration).
-/

set_option maxRecDepth 100000

deriving instance DecidableEq for Except

namespace Wordsworth

/-- A JavaScript string, as its list of characters. -/
abbrev JStr := List Char

/-- JS `TypeError`, raised e.g. by `undefined.length`. -/
inductive JsErr where
  | typeError
deriving DecidableEq

/-- JS whitespace characters matched by the regex class in the source
(the ASCII ones; exotic Unicode whitespace is irrelevant to the claims). -/
def isWsChar (c : Char) : Bool :=
  c == ' ' || c == '\t' || c == '\n' || c == '\r' || c == '\x0b' || c == '\x0c'

/-- The characters stripped by `normalize`'s second regex
`[\.,-\/#?!$%\^'"&\*;:\x7b\x7d=\-_\x60~()]`; the `,-\/` part is the
character range from comma to slash, i.e. comma, hyphen, period, slash. -/
def punctChars : List Char :=
  ['.', ',', '-', '/', '#', '?', '!', '$', '%', '^', '\'', '"', '&', '*',
   ';', ':', '\x7b', '\x7d', '=', '_', '\x60', '~', '(', ')']

/-- One pass of JS `String.prototype.split(/\s+/g)`: `lastWs` records whether
the previous character was part of a whitespace run (so further whitespace
extends the same separator instead of producing another empty segment).
Matches JS exactly, including the leading/trailing empty-string segments. -/
def splitWsF : Bool → JStr → JStr → List JStr
  | _, acc, [] => [acc.reverse]
  | lastWs, acc, c :: rest =>
    if isWsChar c then
      if lastWs then splitWsF true acc rest
      else acc.reverse :: splitWsF true [] rest
    else splitWsF false (c :: acc) rest

/-- JS `words.split(/\s+/g)`. -/
def splitWs (s : JStr) : List JStr := splitWsF false [] s

/-- PRIVATE `normalize` (spell_checker.js lines 26-30): hyphens become
spaces, the punctuation class is stripped, the string is lowercased, then
split on whitespace runs. -/
def normalize (words : JStr) : List JStr :=
  splitWs ((((words.map fun c => if c = '-' then ' ' else c).filter
    fun c => !punctChars.contains c).map Char.toLower))

/-- Association-list lookup, modelling JS object property read
(keys are unique by construction via `aset`). -/
def alookup {α β : Type} [DecidableEq α] : List (α × β) → α → Option β
  | [], _ => none
  | (k, v) :: r, key => if k = key then some v else alookup r key

/-- Association-list update, modelling JS object property write. -/
def aset {α β : Type} [DecidableEq α] : List (α × β) → α → β → List (α × β)
  | [], key, v => [(key, v)]
  | (k, w) :: r, key, v => if k = key then (k, v) :: r else (k, w) :: aset r key v

/-- The module-level state of spell_checker.js:
`var dict = {}, probabilityModel = {}` (lines 1-2). -/
structure St where
  dict : List (Nat × JStr)
  probabilityModel : List (JStr × Nat)
deriving DecidableEq

/-- The state right after module load: both objects empty. -/
def emptySt : St := ⟨[], []⟩

/-- JS `<` on strings: code-unit (here: character) lexicographic order;
a strict prefix is smaller. -/
def ltJStr : JStr → JStr → Bool
  | [], [] => false
  | [], _ :: _ => true
  | _ :: _, [] => false
  | a :: as, b :: bs => if a < b then true else if b < a then false else ltJStr as bs

/-- JS `dict[len].substr(len * mid, len)`: the `mid`-th fixed-width slice of a
bucket.  `mid` is nonnegative whenever the loop in `exists` reads a slice. -/
def wordAt (B : JStr) (len : Nat) (mid : Int) : JStr :=
  (B.drop (len * mid.toNat)).take len

/-- The `while (high >= low)` loop of `SpellChecker.prototype.exists`
(lines 249-258).  `mid` is recomputed from the updated `low`/`high` at the
end of each iteration with `Math.floor`, i.e. flooring division `Int.fdiv`.
The fuel passed by `existsWord` exceeds the element count, and every
iteration shrinks `high - low` by at least one (`low <= mid <= high`), so
the fuel-exhausted branch is unreachable. -/
def existsGo (B : JStr) (len : Nat) (word : JStr) : Nat → Int → Int → Int → Bool
  | 0, _, _, _ => false
  | fuel + 1, low, high, mid =>
    if high < low then false
    else if word = wordAt B len mid then true
    else if ltJStr word (wordAt B len mid) then
      existsGo B len word fuel low (mid - 1) (Int.fdiv (low + (mid - 1)) 2)
    else
      existsGo B len word fuel (mid + 1) high (Int.fdiv ((mid + 1) + high) 2)

/-- `SpellChecker.prototype.exists` (lines 240-261).

The source computes `words = dict[len].length / len` in the `var` declaration
list, BEFORE the `if (!dict[len]) return false;` guard, so a missing bucket
raises a `TypeError` (`.error .typeError` here) and the guard only ever fires
for the falsy empty-string bucket.  A nonempty bucket with `len = 0` makes
`len * mid` evaluate to `NaN` and `substr(NaN, 0)` return `""`, which equals
the empty word, so the first iteration returns `true`.  For `len > 0`,
JS computes fractional `words`, `high` and the first `mid = floor(words/2)`;
comparing against an integer `low` and flooring `(low + high) / 2` gives
exactly the values obtained from the floored element count used here. -/
def existsWord (st : St) (word : JStr) : Except JsErr Bool :=
  match alookup st.dict word.length with
  | none => .error .typeError
  | some B =>
    if B.isEmpty then .ok false
    else if word.length = 0 then .ok true
    else
      .ok (existsGo B word.length word (B.length / word.length + 1) 0
        (((B.length / word.length : Nat) : Int) - 1)
        (Int.fdiv ((B.length / word.length : Nat) : Int) 2))

/-- `SpellChecker.prototype.addWord` (lines 89-96): strip line endings,
then create the bucket, or append to it when the word is not found.
The `exists` call only happens with a nonempty bucket present, but the
embedding keeps the `Except` plumbing of `exists`. -/
def addWord (st : St) (word : JStr) : Except JsErr St :=
  let w := word.filter fun c => !(c == '\r' || c == '\n')
  let len := w.length
  match alookup st.dict len with
  | none => .ok { st with dict := aset st.dict len w }
  | some B =>
    if B.isEmpty then .ok { st with dict := aset st.dict len w }
    else
      match existsWord st w with
      | .error e => .error e
      | .ok true => .ok st
      | .ok false => .ok { st with dict := aset st.dict len (B ++ w) }

/-- One iteration of the loop in `SpellChecker.prototype.train` (lines
142-146).  When the count is truthy, `probability = probability + 1`
increments only the local variable, so the model entry is left unchanged;
only an absent (or zero) entry is written, with value 1. -/
def trainTerm (pm : List (JStr × Nat)) (term : JStr) : List (JStr × Nat) :=
  match alookup pm term with
  | some (_ + 1) => pm
  | _ => aset pm term 1

/-- `SpellChecker.prototype.train` (lines 140-147). -/
def train (st : St) (text : JStr) : St :=
  { st with probabilityModel := (normalize text).foldl trainTerm st.probabilityModel }

/-- A suggestion record pushed by `suggest`:
`{ term: candidate, probability: probabilityIndex }`. -/
structure Cand where
  term : JStr
  probability : Nat
deriving DecidableEq

/-- `var alphabet = 'abcdefghijklmnopqrstuvwxyz'.split('')` (line 4). -/
def alphabet : List Char := "abcdefghijklmnopqrstuvwxyz".toList

/-- The deletion candidates: `input.slice(0, i) + input.slice(i + 1)`. -/
def deletes (input : JStr) : List JStr :=
  (List.range input.length).map fun i => input.take i ++ input.drop (i + 1)

/-- The transposition candidates:
`input.slice(0,i) + input.slice(i+1,i+2) + input.slice(i,i+1) + input.slice(i+2)`
for `i < input.length - 1` (no iterations when the input is empty, matching
the JS comparison against `-1`). -/
def transposes (input : JStr) : List JStr :=
  (List.range (input.length - 1)).map fun i =>
    input.take i ++ (input.drop (i + 1)).take 1 ++ (input.drop i).take 1 ++ input.drop (i + 2)

/-- The replacement candidates: for each position, each alphabet letter. -/
def replacements (input : JStr) : List JStr :=
  (List.range input.length).flatMap fun i =>
    alphabet.map fun a => input.take i ++ [a] ++ input.drop (i + 1)

/-- The insertion candidates: for each position `0 <= i <= length`, each
alphabet letter. -/
def inserts (input : JStr) : List JStr :=
  (List.range (input.length + 1)).flatMap fun i =>
    alphabet.map fun a => input.take i ++ [a] ++ input.drop i

/-- All candidates in generation order: deletes, transposes, replacements,
inserts (lines 189-215). -/
def allCandidates (input : JStr) : List JStr :=
  deletes input ++ transposes input ++ replacements input ++ inserts input

/-- The `evaluate` closure in `suggest` (lines 177-187).  The accumulator is
the pair (`registry` as the list of registered terms, `candidates`).  The
conjuncts short-circuit exactly as in
`candidate !== term && !registry[candidate] && probabilityIndex && self.exists(candidate)`:
in particular `exists` (which can throw) only runs when the candidate's
probability is present and non-zero. -/
def evaluateCand (st : St) (term : JStr) (acc : List JStr × List Cand)
    (candidate : JStr) : Except JsErr (List JStr × List Cand) :=
  if candidate = term then .ok acc
  else if acc.1.contains candidate then .ok acc
  else
    match alookup st.probabilityModel candidate with
    | none => .ok acc
    | some 0 => .ok acc
    | some (p + 1) =>
      match existsWord st candidate with
      | .error e => .error e
      | .ok true => .ok (candidate :: acc.1, acc.2 ++ [⟨candidate, p + 1⟩])
      | .ok false => .ok acc

/-- Runs `evaluate` over the generated candidates in order. -/
def suggestLoop (st : St) (term : JStr) :
    List JStr × List Cand → List JStr → Except JsErr (List JStr × List Cand)
  | acc, [] => .ok acc
  | acc, c :: cs =>
    match evaluateCand st term acc c with
    | .error e => .error e
    | .ok acc' => suggestLoop st term acc' cs

/-- Insertion step for the candidate sort. -/
def insertByProb (c : Cand) : List Cand → List Cand
  | [] => [c]
  | d :: ds => if d.probability < c.probability then c :: d :: ds else d :: insertByProb c ds

/-- The `candidates.sort((a, b) => parseInt(b.probability, 10) - parseInt(a.probability, 10))`
call (lines 218-219): some reordering of the candidates that is sorted by
descending probability (`parseInt` is the identity on the integer counts
stored in the model). -/
def sortByProbDesc (l : List Cand) : List Cand := l.foldr insertByProb []

/-- `SpellChecker.prototype.suggest` (lines 167-225).  Note the final
`.map(function(suggestion) { return suggestion; })` in the source is the
identity: the returned array holds the `{term, probability}` records
themselves, not just the term strings. -/
def suggest (st : St) (input : JStr) : Except JsErr (List Cand) :=
  match existsWord st input with
  | .error e => .error e
  | .ok true => .ok []
  | .ok false =>
    match suggestLoop st input ([], []) (allCandidates input) with
    | .error e => .error e
    | .ok acc => .ok (sortByProbDesc acc.2)

/-- Hexadecimal digit test, for `parseInt`'s `0x` handling. -/
def isHexChar (c : Char) : Bool :=
  c.isDigit || ('a' ≤ c && c ≤ 'f') || ('A' ≤ c && c ≤ 'F')

/-- Whether JS `parseInt(w)` yields a number (i.e. `isNaN(parseInt(w))` is
false): after optional leading whitespace and an optional sign, there is a
leading digit; a `0x`/`0X` head switches to hexadecimal and needs at least
one hex digit after it. -/
def numLead (w : JStr) : Bool :=
  let w1 := w.dropWhile isWsChar
  let w2 := match w1 with
    | '+' :: r => r
    | '-' :: r => r
    | s => s
  match w2 with
  | '0' :: x :: r =>
    if x = 'x' ∨ x = 'X' then
      match r with
      | d :: _ => isHexChar d
      | [] => false
    else true
  | d :: _ => d.isDigit
  | [] => false

/-- The token loop of `SpellChecker.prototype.analyze` (lines 279-285):
`if (!this.exists(word) && (isNaN(parseInt(word)))) analysis[word] = this.suggest(word);`.
`exists` runs first (and can throw); recognized tokens and tokens with a
numeric prefix are skipped; otherwise the object entry is overwritten. -/
def analyzeLoop (st : St) :
    List (JStr × List Cand) → List JStr → Except JsErr (List (JStr × List Cand))
  | analysis, [] => .ok analysis
  | analysis, word :: rest =>
    match existsWord st word with
    | .error e => .error e
    | .ok true => analyzeLoop st analysis rest
    | .ok false =>
      if numLead word then analyzeLoop st analysis rest
      else
        match suggest st word with
        | .error e => .error e
        | .ok sugg => analyzeLoop st (aset analysis word sugg) rest

/-- `SpellChecker.prototype.analyze` (lines 274-289). -/
def analyze (st : St) (sentence : JStr) : Except JsErr (List (JStr × List Cand)) :=
  analyzeLoop st [] (normalize sentence)

/-- One line of the seed loop in `SpellChecker.prototype.initialize`
(lines 77-79): `self.addWord(line); self.train(line);`. -/
def seedStep (st : St) (word : JStr) : Except JsErr St :=
  match addWord st word with
  | .error e => .error e
  | .ok st1 => .ok (train st1 word)

/-- The whole seed loop of `initialize`, with the file's lines given as a
list (reading the file is the external collaborator's job). -/
def seedAll : St → List JStr → Except JsErr St
  | st, [] => .ok st
  | st, w :: ws =>
    match seedStep st w with
    | .error e => .error e
    | .ok st1 => seedAll st1 ws

/-- The full `initialize` (lines 73-87), with both files' lines as lists:
seed loop (addWord + train per line), then train on each training line. -/
def initAll (st : St) (seeds trainingLines : List JStr) : Except JsErr St :=
  match seedAll st seeds with
  | .error e => .error e
  | .ok st1 => .ok (trainingLines.foldl train st1)

/-- A `SpellChecker` instance: the constructor installs no per-instance
state, all data lives in the module-level `dict`/`probabilityModel`. -/
structure SpellChecker

/-- `exports.getInstance` (lines 297-299). -/
def getInstance : SpellChecker := ⟨⟩

/-- Method call `instance.exists(word)`: reads only the module state. -/
def SpellChecker.existsWordM (_ : SpellChecker) (st : St) (w : JStr) : Except JsErr Bool :=
  existsWord st w

/-- Method call `instance.addWord(word)`: mutates only the module state. -/
def SpellChecker.addWordM (_ : SpellChecker) (st : St) (w : JStr) : Except JsErr St :=
  addWord st w

/-- Method call `instance.train(text)`: mutates only the module state. -/
def SpellChecker.trainM (_ : SpellChecker) (st : St) (t : JStr) : St :=
  train st t

/-- Method call `instance.suggest(input)`: reads only the module state. -/
def SpellChecker.suggestM (_ : SpellChecker) (st : St) (w : JStr) : Except JsErr (List Cand) :=
  suggest st w

/-- Method call `instance.analyze(sentence)`: reads only the module state. -/
def SpellChecker.analyzeM (_ : SpellChecker) (st : St) (s : JStr) : Except JsErr (List (JStr × List Cand)) :=
  analyze st s

/-! Helper lemmas about the code-unit lexicographic order `ltJStr`. -/

theorem ltJStr_irrefl (a : JStr) : ltJStr a a = false := by
  induction a with
  | nil => rfl
  | cons c cs ih => simp [ltJStr, ih]

theorem ltJStr_trans : ∀ a b c : JStr,
    ltJStr a b = true → ltJStr b c = true → ltJStr a c = true := by
  intro a
  induction a with
  | nil =>
    intro b c hab hbc
    cases b with
    | nil => simp [ltJStr] at hab
    | cons y ys =>
      cases c with
      | nil => simp [ltJStr] at hbc
      | cons z zs => simp [ltJStr]
  | cons x xs ih =>
    intro b c hab hbc
    cases b with
    | nil => simp [ltJStr] at hab
    | cons y ys =>
      cases c with
      | nil => simp [ltJStr] at hbc
      | cons z zs =>
        simp only [ltJStr] at hab hbc ⊢
        by_cases h1 : x < y
        · by_cases h2 : y < z
          · simp [lt_trans h1 h2]
          · by_cases h3 : z < y
            · simp [h2, h3] at hbc
            · have hyz : y = z := le_antisymm (not_lt.mp h3) (not_lt.mp h2)
              simp [hyz ▸ h1]
        · by_cases h1' : y < x
          · simp [h1, h1'] at hab
          · have hxy : x = y := le_antisymm (not_lt.mp h1') (not_lt.mp h1)
            rw [if_neg h1, if_neg h1'] at hab
            subst hxy
            by_cases h2 : x < z
            · simp [h2]
            · by_cases h3 : z < x
              · simp [h2, h3] at hbc
              · rw [if_neg h2, if_neg h3] at hbc
                rw [if_neg h2, if_neg h3]
                exact ih ys zs hab hbc

theorem ltJStr_total : ∀ a b : JStr, a ≠ b → ltJStr a b = true ∨ ltJStr b a = true := by
  intro a
  induction a with
  | nil =>
    intro b hne
    cases b with
    | nil => exact absurd rfl hne
    | cons y ys => left; simp [ltJStr]
  | cons x xs ih =>
    intro b hne
    cases b with
    | nil => right; simp [ltJStr]
    | cons y ys =>
      rcases lt_trichotomy x y with h | h | h
      · left; simp [ltJStr, h]
      · subst h
        have hne' : xs ≠ ys := fun he => hne (by rw [he])
        rcases ih ys hne' with h2 | h2
        · left; simp [ltJStr, h2]
        · right; simp [ltJStr, h2]
      · right; simp [ltJStr, h]

/-- Flooring the average of two integers stays between them; used for the
midpoint computations in the binary search. -/
theorem fdiv2_between {a b : Int} (h : a ≤ b) :
    a ≤ Int.fdiv (a + b) 2 ∧ Int.fdiv (a + b) 2 ≤ b := by
  rw [Int.fdiv_eq_ediv _ (by omega : (0 : Int) ≤ 2)]
  omega

/-- Reading the `i`-th fixed-width slice of a concatenation of words of
uniform length `len` yields the `i`-th word. -/
theorem flatten_slice (len : Nat) :
    ∀ (ws : List JStr) (i : Nat) (hi : i < ws.length),
      (∀ w ∈ ws, w.length = len) →
      (ws.flatten.drop (len * i)).take len = ws.get ⟨i, hi⟩ := by
  intro ws
  induction ws with
  | nil => intro i hi; exact absurd hi (by simp)
  | cons w tl ih =>
    intro i hi hlen
    have hw : w.length = len := hlen w (by simp)
    cases i with
    | zero =>
      simp only [List.flatten_cons, Nat.mul_zero, List.drop_zero, List.get]
      exact List.take_left' hw
    | succ j =>
      have hsplit : len * (j + 1) = w.length + len * j := by rw [hw]; ring
      simp only [List.flatten_cons, hsplit, List.get]
      rw [List.drop_append]
      exact ih j (by simpa using hi) fun x hx => hlen x (by simp [hx])

/-- Correctness of the `while (high >= low)` loop of `exists` on a bucket
that is the concatenation of a strictly sorted list of words of uniform
positive length: the loop finds the word exactly when it is one of the
bucket's words.  The hypotheses state that every index holding the word
lies inside the current search interval and that the probe index `mid`
lies inside the interval (or the interval is already empty), which is how
`exists` enters the loop. -/
theorem existsGo_eq_mem
    (ws : List JStr) (len : Nat) (word : JStr)
    (hlen : ∀ w ∈ ws, w.length = len)
    (hsort : ws.Pairwise fun a b => ltJStr a b = true) :
    ∀ (fuel : Nat) (low high mid : Int),
      0 ≤ low → high < (ws.length : Int) →
      (high < low ∨ (low ≤ mid ∧ mid ≤ high)) →
      (high + 1 - low).toNat < fuel →
      (∀ k : Fin ws.length, ws.get k = word → low ≤ ((k : Nat) : Int) ∧ ((k : Nat) : Int) ≤ high) →
      existsGo ws.flatten len word fuel low high mid = decide (word ∈ ws) := by
  intro fuel
  induction fuel with
  | zero => intro low high mid _ _ _ hf _; omega
  | succ fuel ih =>
    intro low high mid hlow hhigh hmid hf hinv
    by_cases hord : high < low
    · simp only [existsGo, if_pos hord]
      symm
      simp only [decide_eq_false_iff_not]
      intro hmem
      obtain ⟨k, hk⟩ := List.mem_iff_get.mp hmem
      have hk2 := hinv k hk
      omega
    · have hmid' : low ≤ mid ∧ mid ≤ high := hmid.resolve_left hord
      have hmlt : mid.toNat < ws.length := by omega
      have hfound : wordAt ws.flatten len mid = ws.get ⟨mid.toNat, hmlt⟩ :=
        flatten_slice len ws mid.toNat hmlt hlen
      simp only [existsGo, if_neg hord]
      rw [hfound]
      by_cases heq : word = ws.get ⟨mid.toNat, hmlt⟩
      · rw [if_pos heq]
        have hmem : word ∈ ws := heq ▸ List.get_mem ws mid.toNat hmlt
        simp [hmem]
      · rw [if_neg heq]
        by_cases hlt : ltJStr word (ws.get ⟨mid.toNat, hmlt⟩) = true
        · rw [if_pos hlt]
          apply ih low (mid - 1) _ hlow (by omega) ?_ (by omega) ?_
          · by_cases hc : mid - 1 < low
            · exact Or.inl hc
            · exact Or.inr (fdiv2_between (by omega))
          · intro k hk
            have h1 := hinv k hk
            have hkmid : ((k : Nat) : Int) ≠ mid := by
              intro he
              exact heq (hk ▸ congrArg ws.get (Fin.ext (show (k : Nat) = mid.toNat by omega)))
            have hkgt : ¬ (mid < ((k : Nat) : Int)) := by
              intro hklt
              have hs := List.pairwise_iff_get.mp hsort ⟨mid.toNat, hmlt⟩ k
                (by rw [Fin.lt_def]; exact (by omega : mid.toNat < (k : Nat)))
              rw [hk] at hs
              have := ltJStr_trans word _ word hlt hs
              rw [ltJStr_irrefl] at this
              exact Bool.false_ne_true this
            omega
        · rw [if_neg hlt]
          have hgt : ltJStr (ws.get ⟨mid.toNat, hmlt⟩) word = true := by
            rcases ltJStr_total word _ heq with h | h
            · exact absurd h hlt
            · exact h
          apply ih (mid + 1) high _ (by omega) hhigh ?_ (by omega) ?_
          · by_cases hc : high < mid + 1
            · exact Or.inl hc
            · exact Or.inr (fdiv2_between (by omega))
          · intro k hk
            have h1 := hinv k hk
            have hkmid : ((k : Nat) : Int) ≠ mid := by
              intro he
              exact heq (hk ▸ congrArg ws.get (Fin.ext (show (k : Nat) = mid.toNat by omega)))
            have hklt : ¬ (((k : Nat) : Int) < mid) := by
              intro hklt
              have hs := List.pairwise_iff_get.mp hsort k ⟨mid.toNat, hmlt⟩
                (by rw [Fin.lt_def]; exact (by omega : (k : Nat) < mid.toNat))
              rw [hk] at hs
              exact hlt hs
            omega

/-- Main correctness fact for `exists` (helper shared by several claims):
when the bucket for `word.length` is the concatenation of a strictly
sorted list of words of exactly that (positive) length, `exists` returns
normally and reports exactly membership in that list. -/
theorem existsWord_eq_mem
    (st : St) (ws : List JStr) (word : JStr)
    (hw : word ≠ [])
    (hdict : alookup st.dict word.length = some ws.flatten)
    (hlen : ∀ w ∈ ws, w.length = word.length)
    (hsort : ws.Pairwise fun a b => ltJStr a b = true) :
    existsWord st word = .ok (decide (word ∈ ws)) := by
  have hlenpos : 0 < word.length := List.length_pos.mpr hw
  simp only [existsWord, hdict]
  by_cases hws : ws = []
  · subst hws
    simp
  · have hn : 0 < ws.length := List.length_pos.mpr hws
    have hflat_ne : ws.flatten ≠ [] := by
      cases ws with
      | nil => exact absurd rfl hws
      | cons w tl =>
        have hwlen := hlen w (by simp)
        simp only [List.flatten_cons, ne_eq, List.append_eq_nil]
        intro ⟨hweq, _⟩
        rw [hweq] at hwlen
        simp at hwlen
        omega
    rw [if_neg (by simpa [List.isEmpty_iff] using hflat_ne)]
    rw [if_neg (by omega : ¬ word.length = 0)]
    have hflatlen : ws.flatten.length = ws.length * word.length := by
      have hrep : ws.map List.length = List.replicate ws.length word.length := by
        rw [List.eq_replicate_iff]
        refine ⟨by simp, ?_⟩
        intro b hb
        obtain ⟨w, hwmem, rfl⟩ := List.mem_map.mp hb
        exact hlen w hwmem
      rw [List.length_flatten, hrep, List.sum_replicate, smul_eq_mul]
    have hcount : ws.flatten.length / word.length = ws.length := by
      rw [hflatlen]
      exact Nat.mul_div_cancel ws.length hlenpos
    rw [hcount]
    congr 1
    have hfd : Int.fdiv (ws.length : Int) 2 = (ws.length : Int) / 2 :=
      Int.fdiv_eq_ediv _ (by omega)
    apply existsGo_eq_mem ws word.length word hlen hsort (ws.length + 1) 0
      ((ws.length : Int) - 1) _ le_rfl (by omega) ?_ (by omega) ?_
    · refine Or.inr ⟨?_, ?_⟩ <;> rw [hfd] <;> omega
    · intro k _
      have := k.isLt
      constructor <;> omega

/-! Lemmas about the probability sort used by `suggest`. -/

theorem insertByProb_perm (c : Cand) (l : List Cand) : List.Perm (insertByProb c l) (c :: l) := by
  induction l with
  | nil => exact List.Perm.refl _
  | cons d ds ih =>
    simp only [insertByProb]
    by_cases h : d.probability < c.probability
    · rw [if_pos h]
    · rw [if_neg h]
      exact (ih.cons d).trans (List.Perm.swap c d ds)

theorem sortByProbDesc_perm (l : List Cand) : List.Perm (sortByProbDesc l) l := by
  induction l with
  | nil => exact List.Perm.refl _
  | cons a l ih =>
    simp only [sortByProbDesc, List.foldr_cons]
    exact (insertByProb_perm a _).trans (ih.cons a)

theorem pairwise_insertByProb {c : Cand} {l : List Cand}
    (h : l.Pairwise fun a b => b.probability ≤ a.probability) :
    (insertByProb c l).Pairwise fun a b => b.probability ≤ a.probability := by
  induction l with
  | nil => simp [insertByProb]
  | cons d ds ih =>
    obtain ⟨hd, hds⟩ := List.pairwise_cons.mp h
    simp only [insertByProb]
    by_cases hlt : d.probability < c.probability
    · rw [if_pos hlt]
      refine List.pairwise_cons.mpr ⟨?_, h⟩
      intro b hb
      rcases List.mem_cons.mp hb with rfl | hb'
      · exact le_of_lt hlt
      · exact (hd b hb').trans (le_of_lt hlt)
    · rw [if_neg hlt]
      refine List.pairwise_cons.mpr ⟨?_, ih hds⟩
      intro b hb
      rcases List.mem_cons.mp ((insertByProb_perm c ds).mem_iff.mp hb) with rfl | hb'
      · exact not_lt.mp hlt
      · exact hd b hb'

theorem pairwise_sortByProbDesc (l : List Cand) :
    (sortByProbDesc l).Pairwise fun a b => b.probability ≤ a.probability := by
  induction l with
  | nil => simp [sortByProbDesc]
  | cons a l ih =>
    simp only [sortByProbDesc, List.foldr_cons] at ih ⊢
    exact pairwise_insertByProb ih

/-! The invariant carried through the candidate loop of `suggest`. -/

/-- What `suggest` guarantees of every accepted candidate record: it
differs from the input, its probability is the (non-zero) model count of
its term, and its term is found by `exists`. -/
def CandOk (st : St) (input : JStr) (cd : Cand) : Prop :=
  cd.term ≠ input ∧ alookup st.probabilityModel cd.term = some cd.probability ∧
    cd.probability ≠ 0 ∧ existsWord st cd.term = .ok true

/-- The loop invariant of `suggest`: the registry is exactly the set of
accepted terms (pushed in reverse), the accepted terms are pairwise
distinct, and every accepted record satisfies `CandOk`. -/
def AccOk (st : St) (input : JStr) (acc : List JStr × List Cand) : Prop :=
  acc.1 = (acc.2.map Cand.term).reverse ∧ (acc.2.map Cand.term).Nodup ∧
    ∀ cd ∈ acc.2, CandOk st input cd

theorem evaluateCand_inv {st : St} {input : JStr} {acc : List JStr × List Cand}
    {c : JStr} {acc' : List JStr × List Cand}
    (h : evaluateCand st input acc c = .ok acc')
    (hacc : AccOk st input acc) : AccOk st input acc' := by
  unfold evaluateCand at h
  by_cases h1 : c = input
  · rw [if_pos h1] at h
    simp only [Except.ok.injEq] at h
    exact h ▸ hacc
  · rw [if_neg h1] at h
    by_cases h2 : acc.1.contains c
    · rw [if_pos h2] at h
      simp only [Except.ok.injEq] at h
      exact h ▸ hacc
    · rw [if_neg h2] at h
      cases hpm : alookup st.probabilityModel c with
      | none =>
        rw [hpm] at h
        simp only [Except.ok.injEq] at h
        exact h ▸ hacc
      | some p =>
        rw [hpm] at h
        cases p with
        | zero =>
          simp only [Except.ok.injEq] at h
          exact h ▸ hacc
        | succ q =>
          cases hex : existsWord st c with
          | error e => rw [hex] at h; exact absurd h (by simp)
          | ok b =>
            rw [hex] at h
            cases b with
            | false =>
              simp only [Except.ok.injEq] at h
              exact h ▸ hacc
            | true =>
              simp only [Except.ok.injEq] at h
              obtain ⟨hreg, hnodup, hok⟩ := hacc
              have hcnotin : c ∉ acc.2.map Cand.term := by
                intro hmem
                apply h2
                rw [hreg]
                exact List.elem_iff.mpr (List.mem_reverse.mpr hmem)
              subst h
              refine ⟨?_, ?_, ?_⟩
              · simp [hreg, List.map_append]
              · have hperm : (acc.2.map Cand.term ++ [c]).Perm (c :: acc.2.map Cand.term) :=
                  List.perm_append_singleton c _
                rw [List.map_append]
                exact hperm.nodup_iff.mpr (List.nodup_cons.mpr ⟨hcnotin, hnodup⟩)
              · intro cd hcd
                rcases List.mem_append.mp hcd with hcd' | hcd'
                · exact hok cd hcd'
                · rcases List.mem_singleton.mp hcd' with rfl
                  exact ⟨h1, hpm, Nat.succ_ne_zero q, hex⟩

theorem suggestLoop_inv {st : St} {input : JStr} :
    ∀ (cs : List JStr) (acc acc' : List JStr × List Cand),
      suggestLoop st input acc cs = .ok acc' →
      AccOk st input acc → AccOk st input acc' := by
  intro cs
  induction cs with
  | nil =>
    intro acc acc' h hacc
    simp only [suggestLoop, Except.ok.injEq] at h
    exact h ▸ hacc
  | cons c cs ih =>
    intro acc acc' h hacc
    simp only [suggestLoop] at h
    cases hev : evaluateCand st input acc c with
    | error e => rw [hev] at h; exact absurd h (by simp)
    | ok acc1 =>
      rw [hev] at h
      exact ih acc1 acc' h (evaluateCand_inv hev hacc)

/-! Key-set lemmas for the association lists modelling JS objects. -/

theorem mem_keys_aset {α β : Type} [DecidableEq α] :
    ∀ (l : List (α × β)) (k : α) (v : β) (t : α),
      t ∈ (aset l k v).map Prod.fst ↔ (t = k ∨ t ∈ l.map Prod.fst) := by
  intro l k v
  induction l with
  | nil => intro t; simp [aset]
  | cons p r ih =>
    intro t
    obtain ⟨k1, w⟩ := p
    simp only [aset]
    by_cases h : k1 = k
    · rw [if_pos h]
      subst h
      simp only [List.map_cons, List.mem_cons]
      tauto
    · rw [if_neg h]
      simp only [List.map_cons, List.mem_cons, ih]
      tauto

theorem nodup_keys_aset {α β : Type} [DecidableEq α] :
    ∀ (l : List (α × β)) (k : α) (v : β),
      (l.map Prod.fst).Nodup → ((aset l k v).map Prod.fst).Nodup := by
  intro l k v
  induction l with
  | nil => intro _; simp [aset]
  | cons p r ih =>
    obtain ⟨k1, w⟩ := p
    intro hnd
    simp only [List.map_cons, List.nodup_cons] at hnd
    obtain ⟨hk1, hr⟩ := hnd
    simp only [aset]
    by_cases h : k1 = k
    · rw [if_pos h]
      exact List.nodup_cons.mpr ⟨hk1, hr⟩
    · rw [if_neg h]
      simp only [List.map_cons, List.nodup_cons]
      refine ⟨?_, ih hr⟩
      rw [mem_keys_aset]
      rintro (rfl | hmem)
      · exact h rfl
      · exact hk1 hmem

/-- The invariant of the token loop of `analyze`: when the loop returns
normally, the result keys are duplicate-free, and a token is a key exactly
when it was a key already or it occurs in the remaining tokens, `exists`
reports it absent and it has no numeric prefix. -/
theorem analyzeLoop_inv (st : St) :
    ∀ (toks : List JStr) (analysis m : List (JStr × List Cand)),
      analyzeLoop st analysis toks = .ok m →
      (analysis.map Prod.fst).Nodup →
      (m.map Prod.fst).Nodup ∧
        ∀ t, t ∈ m.map Prod.fst ↔
          (t ∈ analysis.map Prod.fst ∨
            (t ∈ toks ∧ existsWord st t = .ok false ∧ numLead t = false)) := by
  intro toks
  induction toks with
  | nil =>
    intro analysis m h hnd
    simp only [analyzeLoop, Except.ok.injEq] at h
    subst h
    exact ⟨hnd, by simp⟩
  | cons w rest ih =>
    intro analysis m h hnd
    simp only [analyzeLoop] at h
    cases hex : existsWord st w with
    | error e => rw [hex] at h; exact absurd h (by simp)
    | ok b =>
      rw [hex] at h
      cases b with
      | true =>
        obtain ⟨hm, hchar⟩ := ih analysis m h hnd
        refine ⟨hm, fun t => ?_⟩
        rw [hchar t]
        constructor
        · rintro (ha | ⟨hr, hf, hn⟩)
          · exact Or.inl ha
          · exact Or.inr ⟨List.mem_cons_of_mem w hr, hf, hn⟩
        · rintro (ha | ⟨hr, hf, hn⟩)
          · exact Or.inl ha
          · rcases List.mem_cons.mp hr with rfl | hr2
            · rw [hex] at hf
              exact absurd (Except.ok.inj hf) (by simp)
            · exact Or.inr ⟨hr2, hf, hn⟩
      | false =>
        by_cases hnum : numLead w
        · rw [if_pos hnum] at h
          obtain ⟨hm, hchar⟩ := ih analysis m h hnd
          refine ⟨hm, fun t => ?_⟩
          rw [hchar t]
          constructor
          · rintro (ha | ⟨hr, hf, hn⟩)
            · exact Or.inl ha
            · exact Or.inr ⟨List.mem_cons_of_mem w hr, hf, hn⟩
          · rintro (ha | ⟨hr, hf, hn⟩)
            · exact Or.inl ha
            · rcases List.mem_cons.mp hr with rfl | hr2
              · simp [hnum] at hn
              · exact Or.inr ⟨hr2, hf, hn⟩
        · rw [if_neg hnum] at h
          cases hsg : suggest st w with
          | error e => rw [hsg] at h; exact absurd h (by simp)
          | ok sugg =>
            rw [hsg] at h
            obtain ⟨hm, hchar⟩ := ih (aset analysis w sugg) m h (nodup_keys_aset _ _ _ hnd)
            refine ⟨hm, fun t => ?_⟩
            rw [hchar t, mem_keys_aset]
            have hnumf : numLead w = false := by simpa using hnum
            constructor
            · rintro ((rfl | ha) | ⟨hr, hf, hn⟩)
              · exact Or.inr ⟨List.mem_cons_self _ _, hex, hnumf⟩
              · exact Or.inl ha
              · exact Or.inr ⟨List.mem_cons_of_mem w hr, hf, hn⟩
            · rintro (ha | ⟨hr, hf, hn⟩)
              · exact Or.inl (Or.inr ha)
              · rcases List.mem_cons.mp hr with rfl | hr2
                · exact Or.inl (Or.inl rfl)
                · exact Or.inr ⟨hr2, hf, hn⟩

theorem alookup_aset_self {α β : Type} [DecidableEq α] :
    ∀ (l : List (α × β)) (k : α) (v : β), alookup (aset l k v) k = some v := by
  intro l k v
  induction l with
  | nil => simp [aset, alookup]
  | cons p r ih =>
    obtain ⟨k1, w⟩ := p
    simp only [aset]
    by_cases h : k1 = k
    · rw [if_pos h]
      simp [alookup, h]
    · rw [if_neg h]
      simp only [alookup, if_neg h]
      exact ih

theorem alookup_aset_ne {α β : Type} [DecidableEq α] :
    ∀ (l : List (α × β)) (k : α) (v : β) (k2 : α), k2 ≠ k →
      alookup (aset l k v) k2 = alookup l k2 := by
  intro l k v
  induction l with
  | nil =>
    intro k2 h
    simp only [aset, alookup]
    rw [if_neg fun he => h he.symm]
  | cons p r ih =>
    intro k2 h
    obtain ⟨k1, w⟩ := p
    simp only [aset]
    by_cases h1 : k1 = k
    · rw [if_pos h1]
      simp only [alookup]
      by_cases h2 : k1 = k2
      · exact absurd (h2.symm.trans h1) h
      · rw [if_neg h2, if_neg h2]
    · rw [if_neg h1]
      simp only [alookup]
      by_cases h2 : k1 = k2
      · rw [if_pos h2, if_pos h2]
      · rw [if_neg h2, if_neg h2]
        exact ih k2 h

/-- `train` never touches the dictionary. -/
theorem train_dict (st : St) (t : JStr) : (train st t).dict = st.dict := rfl

/-- The representation invariant of a single length bucket relative to the
set `seen` of words inserted so far: the bucket is the concatenation of a
nonempty, strictly sorted list of words of exactly the bucket's length,
holding exactly the already-inserted words of that length. -/
def GoodBucket (len : Nat) (B : JStr) (seen : List JStr) : Prop :=
  ∃ ws : List JStr, B = ws.flatten ∧ ws ≠ [] ∧ (∀ w ∈ ws, w.length = len) ∧
    ws.Pairwise (fun a b => ltJStr a b = true) ∧
    ∀ w : JStr, w ∈ ws ↔ (w ∈ seen ∧ w.length = len)

/-- The dictionary-wide invariant: every present bucket is good, and a
missing bucket means no inserted word has that length. -/
def GoodDict (d : List (Nat × JStr)) (seen : List JStr) : Prop :=
  ∀ len : Nat,
    (∀ B, alookup d len = some B → GoodBucket len B seen) ∧
    (alookup d len = none → ∀ w ∈ seen, w.length ≠ len)

/-- Seeding words in lexicographically nondecreasing order (the order of
the shipped seed files) through `addWord`/`train` keeps every bucket a
strictly sorted concatenation holding exactly the inserted words of its
length, and never raises. -/
theorem seedAll_good :
    ∀ (seeds : List JStr) (st : St) (seen : List JStr),
      (∀ w ∈ seeds, w ≠ []) →
      (∀ w ∈ seeds, ∀ c ∈ w, ¬(c = '\r' ∨ c = '\n')) →
      seeds.Pairwise (fun a b => ltJStr b a = false) →
      (∀ x ∈ seen, ∀ y ∈ seeds, ltJStr y x = false) →
      (∀ x ∈ seen, x ≠ []) →
      GoodDict st.dict seen →
      ∃ stF, seedAll st seeds = .ok stF ∧ GoodDict stF.dict (seen ++ seeds) := by
  intro seeds
  induction seeds with
  | nil =>
    intro st seen _ _ _ _ _ hgood
    exact ⟨st, rfl, by simpa using hgood⟩
  | cons w rest ih =>
    intro st seen hne hclean hsorted hcross hseen_ne hgood
    have hw_ne : w ≠ [] := hne w (List.mem_cons_self _ _)
    have hfilter : (w.filter fun c => !(c == '\r' || c == '\n')) = w := by
      rw [List.filter_eq_self]
      intro c hc
      have hcc := hclean w (List.mem_cons_self _ _) c hc
      push_neg at hcc
      simp [hcc.1, hcc.2]
    have hne_rest : ∀ x ∈ rest, x ≠ [] := fun x hx => hne x (List.mem_cons_of_mem w hx)
    have hclean_rest : ∀ x ∈ rest, ∀ c ∈ x, ¬(c = '\r' ∨ c = '\n') :=
      fun x hx => hclean x (List.mem_cons_of_mem w hx)
    have hsorted_rest := (List.pairwise_cons.mp hsorted).2
    have hw_le_rest := (List.pairwise_cons.mp hsorted).1
    rcases hb : alookup st.dict w.length with _ | B
    · -- no bucket yet: dict[len] = word
      have haw : addWord st w = .ok { st with dict := aset st.dict w.length w } := by
        simp only [addWord, hfilter, hb]
      have hstep : seedStep st w =
          .ok (train { st with dict := aset st.dict w.length w } w) := by
        simp only [seedStep, haw]
      have hgood1 : GoodDict (aset st.dict w.length w) (seen ++ [w]) := by
        intro len
        constructor
        · intro B2 hB2
          by_cases hlen : w.length = len
          · subst hlen
            rw [alookup_aset_self] at hB2
            obtain rfl : w = B2 := Option.some.inj hB2
            refine ⟨[w], by simp, by simp, by simp, by simp, fun x => ?_⟩
            constructor
            · intro hx
              rcases List.mem_singleton.mp hx with rfl
              exact ⟨List.mem_append_right _ (List.mem_singleton.mpr rfl), rfl⟩
            · rintro ⟨hx, hl⟩
              rcases List.mem_append.mp hx with hx2 | hx2
              · exact absurd hl ((hgood w.length).2 hb x hx2)
              · exact hx2
          · rw [alookup_aset_ne _ _ _ _ fun he => hlen he.symm] at hB2
            obtain ⟨ws, hflat, hwsne, hlens, hsort, hiff⟩ := (hgood len).1 B2 hB2
            refine ⟨ws, hflat, hwsne, hlens, hsort, fun x => ?_⟩
            rw [hiff x]
            constructor
            · rintro ⟨hx, hl⟩
              exact ⟨List.mem_append_left _ hx, hl⟩
            · rintro ⟨hx, hl⟩
              rcases List.mem_append.mp hx with hx2 | hx2
              · exact ⟨hx2, hl⟩
              · rcases List.mem_singleton.mp hx2 with rfl
                exact absurd hl.symm fun he => hlen he.symm
        · intro hB2 x hx
          by_cases hlen : w.length = len
          · subst hlen
            rw [alookup_aset_self] at hB2
            exact absurd hB2 (by simp)
          · rw [alookup_aset_ne _ _ _ _ fun he => hlen he.symm] at hB2
            rcases List.mem_append.mp hx with hx2 | hx2
            · exact (hgood len).2 hB2 x hx2
            · rcases List.mem_singleton.mp hx2 with rfl
              exact hlen
      have hcross1 : ∀ x ∈ seen ++ [w], ∀ y ∈ rest, ltJStr y x = false := by
        intro x hx y hy
        rcases List.mem_append.mp hx with hx2 | hx2
        · exact hcross x hx2 y (List.mem_cons_of_mem w hy)
        · rcases List.mem_singleton.mp hx2 with rfl
          exact hw_le_rest y hy
      have hseen1 : ∀ x ∈ seen ++ [w], x ≠ [] := by
        intro x hx
        rcases List.mem_append.mp hx with hx2 | hx2
        · exact hseen_ne x hx2
        · rcases List.mem_singleton.mp hx2 with rfl
          exact hw_ne
      obtain ⟨stF, hrun, hgoodF⟩ := ih (train { st with dict := aset st.dict w.length w } w)
        (seen ++ [w]) hne_rest hclean_rest hsorted_rest hcross1 hseen1 hgood1
      refine ⟨stF, ?_, ?_⟩
      · simp only [seedAll, hstep]
        exact hrun
      · rw [List.append_assoc] at hgoodF
        simpa using hgoodF
    · -- bucket present
      obtain ⟨ws, hflat, hwsne, hlens, hsort, hiff⟩ := (hgood w.length).1 B hb
      have hB_ne : ¬ B.isEmpty := by
        subst hflat
        cases ws with
        | nil => exact absurd rfl hwsne
        | cons w0 tl =>
          have hw0seen : w0 ∈ seen := ((hiff w0).mp (List.mem_cons_self _ _)).1
          have hw0ne := hseen_ne w0 hw0seen
          simp only [List.flatten_cons, List.isEmpty_iff, List.append_eq_nil]
          rintro ⟨h1, _⟩
          exact hw0ne h1
      have hexw : existsWord st w = .ok (decide (w ∈ ws)) :=
        existsWord_eq_mem st ws w hw_ne (hflat ▸ hb) hlens hsort
      have hwseen_of_mem : w ∈ ws → w ∈ seen := fun hm => ((hiff w).mp hm).1
      by_cases hmem : w ∈ ws
      · -- already present: addWord is a no-op
        have haw : addWord st w = .ok st := by
          simp only [addWord, hfilter, hb]
          rw [if_neg hB_ne, hexw]
          simp [hmem]
        have hstep : seedStep st w = .ok (train st w) := by
          simp only [seedStep, haw]
        have hgood1 : GoodDict st.dict (seen ++ [w]) := by
          intro len
          constructor
          · intro B2 hB2
            obtain ⟨ws2, hflat2, hne2, hlens2, hsort2, hiff2⟩ := (hgood len).1 B2 hB2
            refine ⟨ws2, hflat2, hne2, hlens2, hsort2, fun x => ?_⟩
            rw [hiff2 x]
            constructor
            · rintro ⟨hx, hl⟩
              exact ⟨List.mem_append_left _ hx, hl⟩
            · rintro ⟨hx, hl⟩
              rcases List.mem_append.mp hx with hx2 | hx2
              · exact ⟨hx2, hl⟩
              · rcases List.mem_singleton.mp hx2 with rfl
                exact ⟨hwseen_of_mem hmem, hl⟩
          · intro hB2 x hx
            rcases List.mem_append.mp hx with hx2 | hx2
            · exact (hgood len).2 hB2 x hx2
            · rcases List.mem_singleton.mp hx2 with rfl
              intro hl
              rw [← hl, hb] at hB2
              exact absurd hB2 (by simp)
        have hcross1 : ∀ x ∈ seen ++ [w], ∀ y ∈ rest, ltJStr y x = false := by
          intro x hx y hy
          rcases List.mem_append.mp hx with hx2 | hx2
          · exact hcross x hx2 y (List.mem_cons_of_mem w hy)
          · rcases List.mem_singleton.mp hx2 with rfl
            exact hw_le_rest y hy
        have hseen1 : ∀ x ∈ seen ++ [w], x ≠ [] := by
          intro x hx
          rcases List.mem_append.mp hx with hx2 | hx2
          · exact hseen_ne x hx2
          · rcases List.mem_singleton.mp hx2 with rfl
            exact hw_ne
        obtain ⟨stF, hrun, hgoodF⟩ := ih (train st w) (seen ++ [w])
          hne_rest hclean_rest hsorted_rest hcross1 hseen1 hgood1
        refine ⟨stF, ?_, ?_⟩
        · simp only [seedAll, hstep]
          exact hrun
        · rw [List.append_assoc] at hgoodF
          simpa using hgoodF
      · -- absent: the bucket gets the word appended
        have haw : addWord st w =
            .ok { st with dict := aset st.dict w.length (B ++ w) } := by
          simp only [addWord, hfilter, hb]
          rw [if_neg hB_ne, hexw]
          simp [hmem]
        have hstep : seedStep st w =
            .ok (train { st with dict := aset st.dict w.length (B ++ w) } w) := by
          simp only [seedStep, haw]
        have hgood1 : GoodDict (aset st.dict w.length (B ++ w)) (seen ++ [w]) := by
          intro len
          constructor
          · intro B2 hB2
            by_cases hlen : w.length = len
            · subst hlen
              rw [alookup_aset_self] at hB2
              obtain rfl : B ++ w = B2 := Option.some.inj hB2
              refine ⟨ws ++ [w], ?_, by simp, ?_, ?_, fun x => ?_⟩
              · rw [List.flatten_concat, ← hflat]
              · intro x hx
                rcases List.mem_append.mp hx with hx2 | hx2
                · exact hlens x hx2
                · rcases List.mem_singleton.mp hx2 with rfl
                  rfl
              · rw [List.pairwise_append]
                refine ⟨hsort, by simp, ?_⟩
                intro x hx y hy
                rcases List.mem_singleton.mp hy with rfl
                have hxseen : x ∈ seen := ((hiff x).mp hx).1
                have hxw : x ≠ y := fun he => hmem (he ▸ hx)
                rcases ltJStr_total x y hxw with hlt | hlt
                · exact hlt
                · exact absurd hlt (by rw [hcross x hxseen y (List.mem_cons_self _ _)]; simp)
              · constructor
                · intro hx
                  rcases List.mem_append.mp hx with hx2 | hx2
                  · exact ⟨List.mem_append_left _ ((hiff x).mp hx2).1, hlens x hx2⟩
                  · rcases List.mem_singleton.mp hx2 with rfl
                    exact ⟨List.mem_append_right _ (List.mem_singleton.mpr rfl), rfl⟩
                · rintro ⟨hx, hl⟩
                  rcases List.mem_append.mp hx with hx2 | hx2
                  · exact List.mem_append_left _ ((hiff x).mpr ⟨hx2, hl⟩)
                  · rcases List.mem_singleton.mp hx2 with rfl
                    exact List.mem_append_right _ (List.mem_singleton.mpr rfl)
            · rw [alookup_aset_ne _ _ _ _ fun he => hlen he.symm] at hB2
              obtain ⟨ws2, hflat2, hne2, hlens2, hsort2, hiff2⟩ := (hgood len).1 B2 hB2
              refine ⟨ws2, hflat2, hne2, hlens2, hsort2, fun x => ?_⟩
              rw [hiff2 x]
              constructor
              · rintro ⟨hx, hl⟩
                exact ⟨List.mem_append_left _ hx, hl⟩
              · rintro ⟨hx, hl⟩
                rcases List.mem_append.mp hx with hx2 | hx2
                · exact ⟨hx2, hl⟩
                · rcases List.mem_singleton.mp hx2 with rfl
                  exact absurd hl.symm fun he => hlen he.symm
          · intro hB2 x hx
            by_cases hlen : w.length = len
            · subst hlen
              rw [alookup_aset_self] at hB2
              exact absurd hB2 (by simp)
            · rw [alookup_aset_ne _ _ _ _ fun he => hlen he.symm] at hB2
              rcases List.mem_append.mp hx with hx2 | hx2
              · exact (hgood len).2 hB2 x hx2
              · rcases List.mem_singleton.mp hx2 with rfl
                exact hlen
        have hcross1 : ∀ x ∈ seen ++ [w], ∀ y ∈ rest, ltJStr y x = false := by
          intro x hx y hy
          rcases List.mem_append.mp hx with hx2 | hx2
          · exact hcross x hx2 y (List.mem_cons_of_mem w hy)
          · rcases List.mem_singleton.mp hx2 with rfl
            exact hw_le_rest y hy
        have hseen1 : ∀ x ∈ seen ++ [w], x ≠ [] := by
          intro x hx
          rcases List.mem_append.mp hx with hx2 | hx2
          · exact hseen_ne x hx2
          · rcases List.mem_singleton.mp hx2 with rfl
            exact hw_ne
        obtain ⟨stF, hrun, hgoodF⟩ := ih
          (train { st with dict := aset st.dict w.length (B ++ w) } w) (seen ++ [w])
          hne_rest hclean_rest hsorted_rest hcross1 hseen1 hgood1
        refine ⟨stF, ?_, ?_⟩
        · simp only [seedAll, hstep]
          exact hrun
        · rw [List.append_assoc] at hgoodF
          simpa using hgoodF

/-! Concrete fixtures used by the claim theorems below. -/

/-- A state whose lexicon holds exactly "fig" and whose frequency model
observed "fig" once. -/
def figSt : St := ⟨[(3, "fig".toList)], [("fig".toList, 1)]⟩

/-- A state whose lexicon holds exactly the two-letter word "aa" and whose
frequency model is empty. -/
def abSt : St := ⟨[(2, "aa".toList)], []⟩

/-- A sentence with a repeated unknown token, a numeric token and a known
token, all of bucketed lengths. -/
def abSentence : JStr := "ab ab 12 aa".toList

/-- What `analyze` returns on `abSentence` over `abSt`. -/
def abResult : List (JStr × List Cand) := [("ab".toList, [])]

/-! The claims. -/

/-- C1: evaluating `suggest` at a failing input: with lexicon {"fig"} and
model {"fig": 1}, `suggest("fgi")` returns the record
`{term: "fig", probability: 1}`, not the bare string "fig" - the final
`.map` in the source is the identity, so the ranking weight IS part of the
returned elements, contradicting the claim (and the source's own comment
"return only the ordered terms" and its unit test expecting `['fig']`-shaped
output). -/
theorem c1_suggest_returns_records :
    suggest figSt "fgi".toList = .ok [⟨"fig".toList, 1⟩] := by decide

/-- C2: evaluating `train` at a failing input: observing the token "aa"
twice leaves its stored count at 1 (the increment in the source writes a
local variable, never the model), so `frequencyOf` is 1 where the claim
demands 2. -/
theorem c2_train_does_not_increment :
    alookup (train (train emptySt "aa".toList) "aa".toList).probabilityModel "aa".toList
        = some 1 ∧
    alookup (train (train emptySt "aa".toList) "aa".toList).probabilityModel "aa".toList
        ≠ some 2 := by decide

/-- C3: evaluating `exists` at a failing input: with no bucket for the
word's length (here, the freshly loaded empty state), `exists` dereferences
`dict[len].length` BEFORE its `!dict[len]` guard and throws a TypeError
instead of returning false - both for a one-letter word and for the
zero-length word. -/
theorem c3_exists_throws_on_missing_bucket :
    existsWord emptySt "a".toList = .error .typeError ∧
    existsWord emptySt [] = .error .typeError := by decide

/-- C4 counterexample: the claim as stated fails for the zero-length word.
Take the bucket for length 0 present and equal to the concatenation of the
sorted duplicate-free sequence [""] of words of length 0; "" is one of
those words, yet `exists("")` returns false (the empty-string bucket is
falsy, so the `!dict[len]` guard fires). -/
theorem c4_counterexample :
    alookup (St.dict ⟨[(0, [])], []⟩) (List.length ([] : JStr))
        = some (List.flatten [([] : JStr)]) ∧
    (∀ w ∈ [([] : JStr)], w.length = List.length ([] : JStr)) ∧
    List.Pairwise (fun a b => ltJStr a b = true) [([] : JStr)] ∧
    ([] : JStr) ∈ [([] : JStr)] ∧
    existsWord ⟨[(0, [])], []⟩ [] = .ok false := by decide

/-- C4 (amended): for a NONEMPTY word whose length bucket exists and is the
concatenation of a lexicographically sorted sequence of distinct words of
exactly that length, `exists` returns normally with true exactly when the
word is one of those words (binary search over fixed-width slices). -/
theorem c4_exists_binary_search (st : St) (ws : List JStr) (word : JStr)
    (hw : word ≠ [])
    (hdict : alookup st.dict word.length = some ws.flatten)
    (hlen : ∀ w ∈ ws, w.length = word.length)
    (hsort : ws.Pairwise fun a b => ltJStr a b = true) :
    existsWord st word = .ok (decide (word ∈ ws)) :=
  existsWord_eq_mem st ws word hw hdict hlen hsort

/-- C4 witness: the binary-search theorem applied to the sorted two-word
bucket "abcd" of length-2 words, searching "cd". -/
theorem c4_witness :
    existsWord ⟨[(2, "abcd".toList)], []⟩ "cd".toList
      = .ok (decide ("cd".toList ∈ ["ab".toList, "cd".toList])) :=
  c4_exists_binary_search ⟨[(2, "abcd".toList)], []⟩ ["ab".toList, "cd".toList]
    "cd".toList (by decide) (by decide) (by decide) (by decide)

/-- C5 counterexample: insertion does NOT preserve sortedness: seeding "b"
then "a" appends to the length-1 bucket yielding "ba", and the seed word
"b" is afterwards reported absent - `exists` on a seed word returns false. -/
theorem c5_counterexample :
    (['b'] : JStr) ∈ [(['b'] : JStr), ['a']] ∧
    (seedAll emptySt [['b'], ['a']]).bind (fun st => existsWord st ['b']) = .ok false := by
  decide

/-- C5 (amended): when the seed words are nonempty, free of CR/LF, and
arrive in lexicographically nondecreasing order (as in the shipped sorted
seed files), every insertion preserves the invariant that each bucket is a
sorted concatenation of distinct words of its length, seeding never raises,
and every seed word is found afterwards. -/
theorem c5_sorted_seeding_ok (seeds : List JStr)
    (hne : ∀ w ∈ seeds, w ≠ [])
    (hclean : ∀ w ∈ seeds, ∀ c ∈ w, ¬(c = '\r' ∨ c = '\n'))
    (hsorted : seeds.Pairwise fun a b => ltJStr b a = false) :
    ∃ stF, seedAll emptySt seeds = .ok stF ∧
      (∀ len B, alookup stF.dict len = some B →
        ∃ ws : List JStr, B = ws.flatten ∧ (∀ w ∈ ws, w.length = len) ∧
          ws.Pairwise fun a b => ltJStr a b = true) ∧
      ∀ w ∈ seeds, existsWord stF w = .ok true := by
  obtain ⟨stF, hrun, hgood⟩ := seedAll_good seeds emptySt [] hne hclean hsorted
    (by simp) (by simp)
    (fun len => ⟨fun B hB => absurd hB (by simp [emptySt, alookup]), fun _ => by simp⟩)
  refine ⟨stF, hrun, ?_, ?_⟩
  · intro len B hB
    obtain ⟨ws, hflat, _, hlens, hsort2, _⟩ := (hgood len).1 B hB
    exact ⟨ws, hflat, hlens, hsort2⟩
  · intro w hw
    rcases hB : alookup stF.dict w.length with _ | B
    · exact absurd rfl ((hgood w.length).2 hB w (by simpa using hw))
    · obtain ⟨ws, hflat, _, hlens, hsort2, hiff⟩ := (hgood w.length).1 B hB
      have hmem : w ∈ ws := (hiff w).mpr ⟨by simpa using hw, rfl⟩
      rw [existsWord_eq_mem stF ws w (hne w hw) (hflat ▸ hB) hlens hsort2]
      simp [hmem]

/-- C5 witness: the amended seeding theorem applied to the sorted seed list
["fig", "have"]: both words are found after seeding. -/
theorem c5_witness :
    (seedAll emptySt ["fig".toList, "have".toList]).bind
        (fun st => existsWord st "fig".toList) = .ok true ∧
    (seedAll emptySt ["fig".toList, "have".toList]).bind
        (fun st => existsWord st "have".toList) = .ok true := by
  obtain ⟨stF, hrun, _, hall⟩ := c5_sorted_seeding_ok ["fig".toList, "have".toList]
    (by decide) (by decide) (by decide)
  rw [hrun]
  exact ⟨hall _ (by simp), hall _ (by simp)⟩

/-- C6: when `suggest` returns a list, every returned candidate record
differs from the input, its probability field is its term's present,
non-zero count in the frequency model, its term is found by `exists`, the
terms are pairwise distinct, and the list is sorted by descending
probability (hence descending frequency). -/
theorem c6_suggest_sound (st : St) (input : JStr) (l : List Cand)
    (h : suggest st input = .ok l) :
    (∀ cd ∈ l, cd.term ≠ input ∧
        alookup st.probabilityModel cd.term = some cd.probability ∧
        cd.probability ≠ 0 ∧ existsWord st cd.term = .ok true) ∧
      (l.map Cand.term).Nodup ∧
      l.Pairwise (fun a b => b.probability ≤ a.probability) := by
  unfold suggest at h
  cases hex : existsWord st input with
  | error e => rw [hex] at h; exact absurd h (by simp)
  | ok b =>
    rw [hex] at h
    cases b with
    | true =>
      simp only [Except.ok.injEq] at h
      subst h
      exact ⟨by simp, by simp, by simp⟩
    | false =>
      cases hloop : suggestLoop st input ([], []) (allCandidates input) with
      | error e => rw [hloop] at h; exact absurd h (by simp)
      | ok acc =>
        rw [hloop] at h
        simp only [Except.ok.injEq] at h
        subst h
        obtain ⟨hreg, hnodup, hok⟩ :=
          suggestLoop_inv (allCandidates input) ([], []) acc hloop ⟨rfl, by simp, by simp⟩
        have hperm := sortByProbDesc_perm acc.2
        refine ⟨?_, ?_, pairwise_sortByProbDesc acc.2⟩
        · intro cd hcd
          exact hok cd (hperm.mem_iff.mp hcd)
        · exact ((hperm.map Cand.term).nodup_iff).mpr hnodup

/-- C6 witness: the soundness theorem applied to `suggest("fgi")` over the
"fig" fixture, whose single returned record is "fig" with count 1. -/
theorem c6_witness :
    ("fig".toList ≠ "fgi".toList ∧
      alookup figSt.probabilityModel "fig".toList = some 1 ∧
      (1 : Nat) ≠ 0 ∧ existsWord figSt "fig".toList = .ok true) ∧
    ([⟨"fig".toList, 1⟩] : List Cand).Pairwise
      (fun a b => b.probability ≤ a.probability) := by
  have h := c6_suggest_sound figSt "fgi".toList [⟨"fig".toList, 1⟩] (by decide)
  exact ⟨h.1 ⟨"fig".toList, 1⟩ (by simp), h.2.2⟩

/-- In a duplicate-free list, a member occurs exactly once. -/
theorem count_eq_one_of_nodup_mem {α : Type} [BEq α] [LawfulBEq α] {l : List α} {a : α}
    (hnd : l.Nodup) (hmem : a ∈ l) : l.count a = 1 := by
  induction l with
  | nil => simp at hmem
  | cons b l ih =>
    rcases List.mem_cons.mp hmem with rfl | hmem2
    · simp [List.count_cons, List.count_eq_zero.mpr (List.nodup_cons.mp hnd).1]
    · have hanb : a ≠ b := fun he => (List.nodup_cons.mp hnd).1 (he ▸ hmem2)
      simp [List.count_cons, ih (List.nodup_cons.mp hnd).2 hmem2, beq_false_of_ne (Ne.symm hanb)]

/-- C7: when `analyze` returns a mapping, its keys are duplicate-free; a
normalized token that `exists` recognizes has no entry; a token with a
numeric leading prefix has no entry; and every remaining token of the
sentence has exactly one entry however often it repeats. -/
theorem c7_analyze_keys (st : St) (sentence : JStr) (m : List (JStr × List Cand))
    (h : analyze st sentence = .ok m) :
    (m.map Prod.fst).Nodup ∧
      ∀ tok ∈ normalize sentence,
        (existsWord st tok = .ok true → (m.map Prod.fst).count tok = 0) ∧
        (numLead tok = true → (m.map Prod.fst).count tok = 0) ∧
        (existsWord st tok = .ok false → numLead tok = false →
          (m.map Prod.fst).count tok = 1) := by
  unfold analyze at h
  obtain ⟨hm, hchar⟩ := analyzeLoop_inv st (normalize sentence) [] m h (by simp)
  refine ⟨hm, fun tok htok => ?_⟩
  have hc := hchar tok
  simp only [List.map_nil, List.not_mem_nil, false_or] at hc
  refine ⟨?_, ?_, ?_⟩
  · intro hext
    rw [List.count_eq_zero]
    intro hmem
    have h2 := (hc.mp hmem).2.1
    rw [hext] at h2
    exact absurd (Except.ok.inj h2) (by simp)
  · intro hnum
    rw [List.count_eq_zero]
    intro hmem
    have h2 := (hc.mp hmem).2.2
    rw [hnum] at h2
    exact absurd h2 (by simp)
  · intro hext hnum
    exact count_eq_one_of_nodup_mem hm (hc.mpr ⟨htok, hext, hnum⟩)

/-- C7 witness: the analyze theorem applied to the fixture sentence
"ab ab 12 aa": the repeated unknown "ab" has exactly one entry, the numeric
"12" none, the recognized "aa" none. -/
theorem c7_witness :
    (abResult.map Prod.fst).count "ab".toList = 1 ∧
    (abResult.map Prod.fst).count "12".toList = 0 ∧
    (abResult.map Prod.fst).count "aa".toList = 0 := by
  have h := c7_analyze_keys abSt abSentence abResult (by decide)
  exact ⟨(h.2 "ab".toList (by decide)).2.2 (by decide) (by decide),
         (h.2 "12".toList (by decide)).2.1 (by decide),
         (h.2 "aa".toList (by decide)).1 (by decide)⟩

/-- C8 counterexample: training on the empty text (whose normalization
yields one empty token) stores frequency 1 for the empty string in the
model, so the model does contain an entry for the empty token. -/
theorem c8_counterexample :
    alookup (train emptySt []).probabilityModel [] = some 1 := by decide

/-- C8 (amended): empty tokens ARE stored: `train` on a text normalizing to
an empty token records count 1 for the empty string, and `addWord` on the
empty word creates bucket 0 holding the empty string - though `exists`
subsequently treats that falsy bucket as absent. -/
theorem c8_empty_token_stored :
    (train emptySt []).probabilityModel = [([], 1)] ∧
    addWord emptySt [] = .ok ⟨[(0, [])], []⟩ ∧
    (addWord emptySt []).bind (fun st => existsWord st []) = .ok false := by decide

/-- C9: evaluating `suggest` at failing inputs: on the freshly loaded state
`suggest` throws a TypeError both for the empty string and for "aa",
because its initial `exists(input)` call dereferences the missing length
bucket - `suggest` is not total and the claimed no-exception behavior
fails. -/
theorem c9_suggest_throws :
    suggest emptySt [] = .error .typeError ∧
    suggest emptySt "aa".toList = .error .typeError := by decide

/-- C10 counterexample: instances do interfere: adding "ab" through one
`getInstance` handle changes what another handle's `exists` returns on the
shared module state (from a TypeError to true). -/
theorem c10_counterexample :
    (SpellChecker.addWordM getInstance emptySt "ab".toList).bind
        (fun st => SpellChecker.existsWordM getInstance st "ab".toList) = .ok true ∧
    SpellChecker.existsWordM getInstance emptySt "ab".toList ≠ .ok true := by decide

/-- C10 (amended): all `getInstance` instances carry no per-instance state
and operate on the single module-level dict/probabilityModel: the
operations of any two instances are the same functions of the shared
state, so a mutation through one is observed identically through all. -/
theorem c10_instances_share_state (a b : SpellChecker) (st : St) (w t s : JStr) :
    a.existsWordM st w = b.existsWordM st w ∧
    a.addWordM st w = b.addWordM st w ∧
    a.trainM st t = b.trainM st t ∧
    a.suggestM st w = b.suggestM st w ∧
    a.analyzeM st s = b.analyzeM st s :=
  ⟨rfl, rfl, rfl, rfl, rfl⟩

end Wordsworth
